import Mathlib

/-!
Verification of the dependency-graph analyzer (`src/main.py`).

The program loads a textual edge list into an adjacency dictionary
(`load_test_graph`), renders a depth-bounded cycle-annotated dependency tree
(`_print_tree_recursive` driven by `run_test_mode`), and computes a
reverse-topological loading order with cycle detection
(`get_loading_order_dfs` driven by `run_loading_order_mode`).

Embedding conventions:
* Python `str` is Lean `String`; Python string comparison (sorting by code
  points) is modelled by an explicit character-list comparator, and Python's
  substring test `a in b` by an explicit character-list search, because both
  must be executable by kernel reduction.
* Python `Dict[str, Set[str]]` is an association list `List (String × List
  String)`; a stored list models the set through its members (the traversal
  code reads it only through `sortedDeps`, which deduplicates and sorts,
  exactly as Python's `sorted(set)` does).
* The recursion of `_print_tree_recursive` and `get_loading_order_dfs` is
  bounded in Python by the depth cap resp. by the recursion stack.  Both are
  embedded with an explicit structural fuel parameter so that they compute by
  kernel reduction; the drivers pass a fuel that the source's own bounds
  (depth ≤ max_depth, stack ⊆ distinct node names) keep from running out.
* Console printing is modelled by returning the list of emitted lines; each
  tree line is a `Line` record carrying the drawing prefix, the node name and
  the optional `" (cyclic)"` tag, assembled to the printed string by
  `Line.out` exactly as the `print` calls concatenate them.
-/

/-- Wrapper of `Char.isWhitespace` for Python's `str.strip`/`str.split()` boundary. -/
def isWsChar (c : Char) : Bool := c.isWhitespace

/-- Python `s.strip()`: drop whitespace from both ends (on the char list). -/
def trimChars (l : List Char) : List Char :=
  ((l.dropWhile isWsChar).reverse.dropWhile isWsChar).reverse

/-- Python `s.split()` helper: accumulate the current word (reversed) while
scanning; emits maximal non-whitespace runs, dropping empty tokens. -/
def wordsAux : List Char → List Char → List String
  | [], cur => if cur.isEmpty then [] else [String.mk cur.reverse]
  | c :: rest, cur =>
    if isWsChar c then
      if cur.isEmpty then wordsAux rest [] else String.mk cur.reverse :: wordsAux rest []
    else wordsAux rest (c :: cur)

/-- Python `s.split()`: whitespace-separated tokens, empties dropped. -/
def tokensOf (l : List Char) : List String := wordsAux l []

/-- Does `p` occur as a contiguous sublist of `s`?  (Python `p in s` on
strings, at the character-list level; the empty pattern matches.) -/
def subCharList (p : List Char) : List Char → Bool
  | [] => p.isEmpty
  | c :: rest => p.isPrefixOf (c :: rest) || subCharList p rest

/-- Python `pat in s` for strings. -/
def strContains (s pat : String) : Bool := subCharList pat.data s.data

/-- Python `filter_str and filter_str in node`: a node is filtered out iff the
filter is non-empty and occurs in the node's name (lines 80 and 129). -/
def isFiltered (fil node : String) : Bool := !fil.data.isEmpty && strContains node fil

/-- Strict lexicographic comparison of char lists by code points, as Python
compares strings. -/
def charsLt : List Char → List Char → Bool
  | [], [] => false
  | [], _ :: _ => true
  | _ :: _, [] => false
  | a :: as, b :: bs => if a < b then true else if b < a then false else charsLt as bs

/-- Comparison `a ≤ b` on strings in Python's ordering (used by `sorted`). -/
def strLe (a b : String) : Bool := !(charsLt b.data a.data)

/-- The order on strings that Python's `sorted` sorts by, as a `Prop`. -/
def strLeP (a b : String) : Prop := strLe a b = true

instance : DecidableRel strLeP := fun a b => instDecidableEqBool (strLe a b) true

/-- Python `sorted` on a list of strings. -/
def sortStrings (l : List String) : List String := List.insertionSort strLeP l

/-- The adjacency dictionary `Dict[str, Set[str]]` as an association list. -/
abbrev Graph := List (String × List String)

/-- Dictionary lookup of the entry for `n`. -/
def gFind (g : Graph) (n : String) : Option (String × List String) :=
  g.find? (fun p => p.1 == n)

/-- Python `n in graph`. -/
def hasKey (g : Graph) (n : String) : Bool := (gFind g n).isSome

/-- Python `graph.get(n, set())`, the dependency set (as its member list). -/
def lookupDeps (g : Graph) (n : String) : List String :=
  ((gFind g n).map Prod.snd).getD []

/-- Source `sorted([dep for dep in graph.get(node, set()) if not (filter_str and
filter_str in dep)])` (lines 95 and 141): the unfiltered dependencies,
deduplicated (they form a Python set) and sorted. -/
def sortedDeps (g : Graph) (fil node : String) : List String :=
  sortStrings (((lookupDeps g node).filter (fun d => !(isFiltered fil d))).dedup)

/-- Splits a char list at the first `':'` (Python `line.split(':', 1)`),
`none` when there is no colon (Python `':' not in line`). -/
def splitColon : List Char → Option (List Char × List Char)
  | [] => none
  | c :: rest =>
    if c = ':' then some ([], rest)
    else (splitColon rest).map (fun p => (c :: p.1, p.2))

/-- One iteration of the parsing loop of `load_test_graph` (lines 43-50):
strip the line; skip it when blank, a `#` comment, or colon-free; otherwise
split at the first colon into the package name (stripped) and the
whitespace-separated dependency tokens. -/
def parseLine (line : String) : Option (String × List String) :=
  match trimChars line.data with
  | [] => none
  | c :: rest =>
    if c = '#' then none
    else
      match splitColon (c :: rest) with
      | none => none
      | some (bef, aft) => some (String.mk (trimChars bef), tokensOf (trimChars aft))

/-- Source `if package_name not in graph: graph[package_name] = set()` (lines 52-53
and 58-59): idempotently register a key with an empty set. -/
def ensureKey (g : Graph) (n : String) : Graph :=
  if hasKey g n then g else g ++ [(n, [])]

/-- Source `graph[package_name].update(set(dependencies))` (line 55): union the
tokens into the entry of `n` (set semantics: no duplicates introduced). -/
def addDeps (g : Graph) (n : String) (ds : List String) : Graph :=
  g.map (fun p =>
    if p.1 == n then (p.1, p.2 ++ (ds.dedup.filter (fun d => !(p.2.contains d)))) else p)

/-- The body of the parsing loop of `load_test_graph` for one line
(lines 44-59): parse, register the package, union its dependencies, then
register every dependency token as a key. -/
def applyLine (g : Graph) (line : String) : Graph :=
  match parseLine line with
  | none => g
  | some (pkg, ds) => ds.foldl (fun gg d => ensureKey gg d) (addDeps (ensureKey g pkg) pkg ds)

/-- Source `load_test_graph` (lines 39-67) on the file's lines.  (Reading the file
from disk and its I/O error exits are boundary collaborators; the graph built
from the successfully read lines is modelled.) -/
def load_test_graph (ls : List String) : Graph := ls.foldl applyLine []

/-- One rendered tree line: drawing prefix, node name, and the trailing tag
(`""` or `" (cyclic)"`), printed as their concatenation. -/
structure Line where
  pre : String
  name : String
  tag : String
deriving DecidableEq

/-- The string actually printed for a `Line` (line 83 plus the optional
marker of line 86). -/
def Line.out (l : Line) : String := l.pre ++ l.name ++ l.tag

/-- The drawing constants of lines 105-106 and 209-210. -/
def midConnector : String := "├── "

/-- Connector of the last child. -/
def lastConnector : String := "└── "

/-- Continuation segment below a non-last child. -/
def midSegment : String := "│   "

/-- Continuation segment below the last child. -/
def lastSegment : String := "    "

/-- The `for i, dep in enumerate(dependencies)` loop of lines 102-117 and
206-221: each child is rendered by `f child connector continuation`, where the
last child (`i == len - 1`) gets `└── `/blank and every other child gets
`├── `/`│   `, both appended to the parent's accumulated prefix. -/
def renderChildren (f : String → String → String → List Line) (pp : String) :
    List String → List Line
  | [] => []
  | [d] => f d (pp ++ lastConnector) (pp ++ lastSegment)
  | d :: e :: ds => f d (pp ++ midConnector) (pp ++ midSegment) ++ renderChildren f pp (e :: ds)

/-- Source `_print_tree_recursive` (lines 70-117), returning the lines it prints.
Checks in source order: the filter skip (line 80), the line for the node
itself (line 83), the cyclic-ancestor stop (lines 85-87), the depth stop
(lines 89-91), then the recursion into the sorted unfiltered dependencies,
each child receiving `path ∪ {node}` (the per-child `path.copy()` of
line 115 after the `path.add(node)` of line 100).  `fuel` is a structural
recursion budget: every frame at depth `d < maxDepth` recurses with depth
`d + 1`, so a top-level budget of `maxDepth` (with the root's children at
depth 1) never runs out. -/
def printTreeRec (g : Graph) (maxDepth : Nat) (fil : String) :
    Nat → String → Nat → String → List String → String → List Line
  | 0, _, _, _, _, _ => []
  | fuel + 1, node, depth, pre, path, parentPre =>
    if isFiltered fil node then []
    else if node ∈ path then [⟨pre, node, " (cyclic)"⟩]
    else if maxDepth ≤ depth then [⟨pre, node, ""⟩]
    else
      ⟨pre, node, ""⟩ ::
        renderChildren
          (fun d conn cont => printTreeRec g maxDepth fil fuel d (depth + 1) conn (node :: path) cont)
          parentPre (sortedDeps g fil node)

/-- Source `run_test_mode` (lines 185-221), returning the tree lines it prints
(`none` when the root is missing and only the error is reported; the
diagnostic banner lines of 186-192 are not part of the rendered tree).  The
root's line is printed unconditionally (line 200); its sorted unfiltered
direct dependencies are then rendered at depth 1 with `path = {root}`. -/
def run_test_mode (g : Graph) (pkg : String) (maxDepth : Nat) (fil : String) :
    Option (List Line) :=
  if hasKey g pkg then
    some (⟨"", pkg, ""⟩ ::
      renderChildren
        (fun d conn cont => printTreeRec g maxDepth fil maxDepth d 1 conn [pkg] cont)
        "" (sortedDeps g fil pkg))
  else none

/-- The four mutable collections of `run_loading_order_mode` (lines 161-164)
threaded through `get_loading_order_dfs`.  `order` grows by appending;
`visited`, `recursionStack` and `cycles` are sets read through membership. -/
structure DfsState where
  order : List String
  visited : List String
  recursionStack : List String
  cycles : List String
deriving DecidableEq

/-- Source `get_loading_order_dfs` (lines 120-149).  Checks in source order: the
filter skip (129), the active-ancestor cycle record (132-134), the
already-visited skip (136-137); otherwise push onto the recursion stack,
recurse into the sorted unfiltered dependencies, pop, mark visited, and
append to the order.  `fuel` is a structural recursion budget; the recursion
stack gains a distinct node name on every nested call, so the driver's budget
(one more than the number of distinct names) never runs out. -/
def dfsGo (g : Graph) (fil : String) : Nat → String → DfsState → DfsState
  | 0, _, st => st
  | fuel + 1, node, st =>
    if isFiltered fil node then st
    else if node ∈ st.recursionStack then { st with cycles := node :: st.cycles }
    else if node ∈ st.visited then st
    else
      let st1 : DfsState := { st with recursionStack := node :: st.recursionStack }
      let st2 := (sortedDeps g fil node).foldl (fun s d => dfsGo g fil fuel d s) st1
      { order := st2.order ++ [node]
        visited := node :: st2.visited
        recursionStack := st2.recursionStack.erase node
        cycles := st2.cycles }

/-- Every name occurring in the dictionary: the keys and, for each key, the
members of its dependency set. -/
def nodesOf (g : Graph) : List String :=
  g.map Prod.fst ++ (g.map Prod.fst).flatMap (fun n => lookupDeps g n)

/-- Recursion budget for `dfsGo`: one more than the number of distinct names
that can ever enter the recursion stack. -/
def dfsFuel (g : Graph) (start : String) : Nat :=
  ((start :: nodesOf g).dedup).length + 1

/-- The traversal of `run_loading_order_mode` (lines 161-166): run
`get_loading_order_dfs` from the start node on fresh state and return the
resulting `loading_order` and `cycles`. -/
def computeLoadOrder (g : Graph) (start fil : String) : List String × List String :=
  ((dfsGo g fil (dfsFuel g start) start ⟨[], [], [], []⟩).order,
    (dfsGo g fil (dfsFuel g start) start ⟨[], [], [], []⟩).cycles)

/-- Source `run_loading_order_mode` (lines 152-183): `none` when the requested
package is not a key (error reported, traversal skipped, lines 157-159),
otherwise the computed order and cycle set. -/
def run_loading_order_mode (g : Graph) (pkg fil : String) :
    Option (List String × List String) :=
  if hasKey g pkg then some (computeLoadOrder g pkg fil) else none

/-! ### Order facts about the string comparator -/

theorem charsLt_asymm : ∀ as bs, charsLt as bs = true → charsLt bs as = false := by
  intro as
  induction as with
  | nil => intro bs h; cases bs <;> simp_all [charsLt]
  | cons a as ih =>
    intro bs h
    cases bs with
    | nil => simp [charsLt] at h
    | cons b bs =>
      by_cases hab : a < b
      · simp [charsLt, hab, asymm hab]
      · by_cases hba : b < a
        · simp [charsLt, hab, hba] at h
        · simp [charsLt, hab, hba] at h ⊢
          exact ih bs h

theorem charsLt_tri : ∀ as bs, charsLt as bs = true ∨ charsLt bs as = true ∨ as = bs := by
  intro as
  induction as with
  | nil => intro bs; cases bs <;> simp [charsLt]
  | cons a as ih =>
    intro bs
    cases bs with
    | nil => simp [charsLt]
    | cons b bs =>
      by_cases hab : a < b
      · left; simp [charsLt, hab]
      · by_cases hba : b < a
        · right; left; simp [charsLt, hba]
        · have hab2 : a = b := le_antisymm (le_of_not_lt hba) (le_of_not_lt hab)
          subst hab2
          rcases ih bs with h | h | h
          · left; simp [charsLt, h]
          · right; left; simp [charsLt, h]
          · right; right; rw [h]

theorem charsLt_trans : ∀ as bs cs, charsLt as bs = true → charsLt bs cs = true →
    charsLt as cs = true := by
  intro as
  induction as with
  | nil =>
    intro bs cs h1 h2
    cases bs with
    | nil => simp [charsLt] at h1
    | cons b bs =>
      cases cs with
      | nil => simp [charsLt] at h2
      | cons c cs => simp [charsLt]
  | cons a as ih =>
    intro bs cs h1 h2
    cases bs with
    | nil => simp [charsLt] at h1
    | cons b bs =>
      cases cs with
      | nil => simp [charsLt] at h2
      | cons c cs =>
        by_cases hab : a < b <;> by_cases hbc : b < c
        · simp [charsLt, lt_trans hab hbc]
        · by_cases hcb : c < b
          · simp [charsLt, hbc, hcb] at h2
          · have : b = c := le_antisymm (le_of_not_lt hcb) (le_of_not_lt hbc)
            subst this
            simp [charsLt, hab]
        · by_cases hba : b < a
          · simp [charsLt, hab, hba] at h1
          · have : a = b := le_antisymm (le_of_not_lt hba) (le_of_not_lt hab)
            subst this
            simp [charsLt, hbc]
        · by_cases hba : b < a
          · simp [charsLt, hab, hba] at h1
          · have h3 : a = b := le_antisymm (le_of_not_lt hba) (le_of_not_lt hab)
            by_cases hcb : c < b
            · simp [charsLt, hbc, hcb] at h2
            · have h4 : b = c := le_antisymm (le_of_not_lt hcb) (le_of_not_lt hbc)
              subst h3; subst h4
              simp [charsLt, hab] at h1 h2 ⊢
              exact ih bs cs h1 h2

instance : IsTotal String strLeP := by
  constructor
  intro a b
  by_cases h : charsLt b.data a.data = true
  · right
    have := charsLt_asymm _ _ h
    simp [strLeP, strLe, this]
  · left
    simp only [Bool.not_eq_true] at h
    simp [strLeP, strLe, h]

instance : IsTrans String strLeP := by
  constructor
  intro a b c h1 h2
  simp only [strLeP, strLe, Bool.not_eq_true', Bool.not_eq_true] at h1 h2 ⊢
  by_cases hca : charsLt c.data a.data = true
  · rcases charsLt_tri b.data a.data with h | h | h
    · simp [h] at h1
    · have := charsLt_trans _ _ _ hca h
      simp [this] at h2
    · rw [h] at h2
      exact h2
  · simpa using hca

instance : IsAntisymm String strLeP := by
  constructor
  intro a b h1 h2
  simp only [strLeP, strLe, Bool.not_eq_true', Bool.not_eq_true] at h1 h2
  rcases charsLt_tri a.data b.data with h | h | h
  · simp [h] at h2
  · simp [h] at h1
  · exact congrArg String.mk h

theorem mem_sortStrings {l : List String} {a : String} : a ∈ sortStrings l ↔ a ∈ l :=
  (List.perm_insertionSort strLeP l).mem_iff

theorem sortStrings_nodup {l : List String} (h : l.Nodup) : (sortStrings l).Nodup :=
  ((List.perm_insertionSort strLeP l).nodup_iff).mpr h

theorem sortStrings_sorted (l : List String) : List.Sorted strLeP (sortStrings l) :=
  List.sorted_insertionSort strLeP l

theorem sortStrings_eq_of_mem_iff {l₁ l₂ : List String} (h₁ : l₁.Nodup) (h₂ : l₂.Nodup)
    (h : ∀ a, a ∈ l₁ ↔ a ∈ l₂) : sortStrings l₁ = sortStrings l₂ := by
  have hp : l₁.Perm l₂ := (List.perm_ext_iff_of_nodup h₁ h₂).mpr h
  exact List.eq_of_perm_of_sorted
    ((List.perm_insertionSort strLeP l₁).trans (hp.trans (List.perm_insertionSort strLeP l₂).symm))
    (sortStrings_sorted l₁) (sortStrings_sorted l₂)

/-! ### Basic facts about the dependency reading -/

theorem mem_sortedDeps {g : Graph} {fil node d : String} :
    d ∈ sortedDeps g fil node ↔ d ∈ lookupDeps g node ∧ isFiltered fil d = false := by
  simp [sortedDeps, mem_sortStrings, List.mem_dedup, List.mem_filter]

theorem sortedDeps_nodup (g : Graph) (fil node : String) : (sortedDeps g fil node).Nodup :=
  sortStrings_nodup (List.nodup_dedup _)

theorem sortedDeps_unfiltered {g : Graph} {fil node d : String}
    (h : d ∈ sortedDeps g fil node) : isFiltered fil d = false :=
  (mem_sortedDeps.mp h).2

theorem isFiltered_empty (x : String) : isFiltered "" x = false := rfl

/-! ### Renderer helper lemmas -/

theorem renderChildren_names (f : String → String → String → List Line)
    (pp : String) : ∀ ds : List String,
    (∀ d ∈ ds, ∀ conn cont, (f d conn cont).map Line.name = [d]) →
    (renderChildren f pp ds).map Line.name = ds := by
  intro ds
  induction ds with
  | nil => intro _; rfl
  | cons d ds ih =>
    intro hf
    cases ds with
    | nil => simpa [renderChildren] using hf d (by simp) _ _
    | cons e ds =>
      have h1 := hf d (by simp) (pp ++ midConnector) (pp ++ midSegment)
      have h2 := ih (fun x hx conn cont => hf x (by simp [hx]) conn cont)
      simp [renderChildren, h1, h2]

theorem mem_renderChildren {f : String → String → String → List Line}
    {pp : String} {l : Line} : ∀ {ds : List String},
    l ∈ renderChildren f pp ds → ∃ d ∈ ds, ∃ conn cont, l ∈ f d conn cont := by
  intro ds
  induction ds with
  | nil => intro h; simp [renderChildren] at h
  | cons d ds ih =>
    intro h
    cases ds with
    | nil =>
      exact ⟨d, by simp, pp ++ lastConnector, pp ++ lastSegment, by simpa [renderChildren] using h⟩
    | cons e ds =>
      rw [renderChildren, List.mem_append] at h
      rcases h with h | h
      · exact ⟨d, by simp, _, _, h⟩
      · obtain ⟨x, hx, conn, cont, hl⟩ := ih h
        exact ⟨x, by simp [List.mem_cons] at hx ⊢; tauto, conn, cont, hl⟩

theorem printTreeRec_depthcap (g : Graph) (maxDepth : Nat) (fil : String) (fuel : Nat)
    (node : String) (depth : Nat) (pre : String) (path : List String) (pp : String)
    (hfil : isFiltered fil node = false) (hd : maxDepth ≤ depth) :
    printTreeRec g maxDepth fil (fuel + 1) node depth pre path pp =
      if node ∈ path then [⟨pre, node, " (cyclic)"⟩] else [⟨pre, node, ""⟩] := by
  rw [printTreeRec]
  simp only [hfil, Bool.false_eq_true, if_false]
  split <;> simp [hd]

/-! ### Claim theorems: concrete examples and error handling -/

/-- C3: for the diamond graph `A: B C`, `B: D`, `C: D`, `D:` (no
dependencies), `computeLoadOrder` from root `A` with the empty filter returns
the order `D, B, C, A`. -/
theorem diamond_yields_D_B_C_A :
    (computeLoadOrder [("A", ["B", "C"]), ("B", ["D"]), ("C", ["D"]), ("D", [])] "A" "").1 =
      ["D", "B", "C", "A"] := by decide

/-- C4: for the two-node cycle `A: B`, `B: A`, rendering from root `A` with
`maxDepth = 5` and empty filter emits exactly the lines `A`, `└── B`,
`    └── A (cyclic)` — the cyclic occurrence is the last line, so it has no
children. -/
theorem two_cycle_render_marks_cycle :
    run_test_mode [("A", ["B"]), ("B", ["A"])] "A" 5 "" =
      some [⟨"", "A", ""⟩, ⟨"└── ", "B", ""⟩, ⟨"    └── ", "A", " (cyclic)"⟩] ∧
    (run_test_mode [("A", ["B"]), ("B", ["A"])] "A" 5 "").map (fun ls => ls.map Line.out) =
      some ["A", "└── B", "    └── A (cyclic)"] := by
  constructor <;> decide

/-- C9: when the requested root package is not a key of the graph, both the
render mode and the loading-order mode return `none` (the source prints the
error to stderr and `return`s before any traversal; the model's totality
reflects that no exception escapes). -/
theorem missing_root_reports_and_skips (g : Graph) (pkg fil : String) (maxDepth : Nat)
    (h : hasKey g pkg = false) :
    run_test_mode g pkg maxDepth fil = none ∧ run_loading_order_mode g pkg fil = none := by
  constructor <;> simp [run_test_mode, run_loading_order_mode, h]

theorem missing_root_reports_and_skips_witness :
    hasKey [("A", ["B"]), ("B", [])] "Z" = false ∧
      (run_test_mode [("A", ["B"]), ("B", [])] "Z" 5 "" = none ∧
        run_loading_order_mode [("A", ["B"]), ("B", [])] "Z" "" = none) :=
  ⟨by decide, missing_root_reports_and_skips [("A", ["B"]), ("B", [])] "Z" "" 5 (by decide)⟩

/-- C5: with `maxDepth = 1` and an empty filter, the rendering of any root
present in the graph is the root's line followed by exactly one line per
direct dependency, in ascending lexicographic order, and nothing below them
(the depth cap stops every child before it enumerates children). -/
theorem depth_one_render_lists_direct_deps (g : Graph) (pkg : String)
    (h : hasKey g pkg = true) :
    ∃ kids : List Line,
      run_test_mode g pkg 1 "" = some (⟨"", pkg, ""⟩ :: kids) ∧
      kids.map Line.name = sortedDeps g "" pkg := by
  refine ⟨renderChildren
      (fun d conn cont => printTreeRec g 1 "" 1 d 1 conn [pkg] cont) "" (sortedDeps g "" pkg),
    ?_, ?_⟩
  · simp [run_test_mode, h]
  · apply renderChildren_names
    intro d _ conn cont
    rw [show (1 : Nat) = 0 + 1 from rfl,
      printTreeRec_depthcap g 1 "" 0 d 1 conn [pkg] cont (isFiltered_empty d) le_rfl]
    split <;> rfl

theorem depth_one_render_lists_direct_deps_witness :
    hasKey [("A", ["C", "B"]), ("B", ["D"]), ("C", []), ("D", [])] "A" = true ∧
      ∃ kids : List Line,
        run_test_mode [("A", ["C", "B"]), ("B", ["D"]), ("C", []), ("D", [])] "A" 1 "" =
          some (⟨"", "A", ""⟩ :: kids) ∧
        kids.map Line.name = sortedDeps [("A", ["C", "B"]), ("B", ["D"]), ("C", []), ("D", [])] "" "A" :=
  ⟨by decide, depth_one_render_lists_direct_deps _ _ (by decide)⟩

/-! ### Sibling independence of the rendering (C6) -/

theorem renderChildren_append (f : String → String → String → List Line) (pp : String) :
    ∀ ds₁ ds₂ : List String, ds₂ ≠ [] →
    renderChildren f pp (ds₁ ++ ds₂) =
      ds₁.flatMap (fun d => f d (pp ++ midConnector) (pp ++ midSegment)) ++
        renderChildren f pp ds₂ := by
  intro ds₁
  induction ds₁ with
  | nil => intro ds₂ _; simp
  | cons d ds₁ ih =>
    intro ds₂ h
    have hne : ds₁ ++ ds₂ ≠ [] := by
      cases ds₁ <;> cases ds₂ <;> simp_all
    obtain ⟨e, rest, hcase⟩ := List.exists_cons_of_ne_nil hne
    calc renderChildren f pp (d :: ds₁ ++ ds₂)
        = f d (pp ++ midConnector) (pp ++ midSegment) ++ renderChildren f pp (ds₁ ++ ds₂) := by
          rw [List.cons_append, hcase, renderChildren, ← hcase]
      _ = _ := by rw [ih ds₂ h]; simp [List.append_assoc]

/-- C6: sibling subtrees of the renderer are independent.  In the children
loop, every sibling's lines are computed by the same pure call
`printTreeRec … path …` with the identical ancestor-path value `path` (the
source's fresh `path.copy()` per child), and the lines of the later siblings
`ds₂` are a function of `ds₂` and that shared `path` alone — nothing a
sibling in `ds₁` adds to its own branch's path is observable there. -/
theorem sibling_branches_share_no_path_state (g : Graph) (maxDepth : Nat) (fil : String)
    (fuel depth : Nat) (path : List String) (pp : String) (ds₁ ds₂ : List String)
    (h : ds₂ ≠ []) :
    renderChildren (fun d conn cont => printTreeRec g maxDepth fil fuel d depth conn path cont)
        pp (ds₁ ++ ds₂) =
      ds₁.flatMap (fun d =>
        printTreeRec g maxDepth fil fuel d depth (pp ++ midConnector) path (pp ++ midSegment)) ++
      renderChildren (fun d conn cont => printTreeRec g maxDepth fil fuel d depth conn path cont)
        pp ds₂ :=
  renderChildren_append _ pp ds₁ ds₂ h

theorem sibling_branches_share_no_path_state_witness :
    (["C", "D"] : List String) ≠ [] ∧
      renderChildren
          (fun d conn cont =>
            printTreeRec [("A", ["B", "C", "D"]), ("B", ["A"])] 5 "" 4 d 1 conn ["A"] cont)
          "" (["B"] ++ ["C", "D"]) =
        (["B"] : List String).flatMap (fun d =>
          printTreeRec [("A", ["B", "C", "D"]), ("B", ["A"])] 5 "" 4 d 1
            ("" ++ midConnector) ["A"] ("" ++ midSegment)) ++
        renderChildren
          (fun d conn cont =>
            printTreeRec [("A", ["B", "C", "D"]), ("B", ["A"])] 5 "" 4 d 1 conn ["A"] cont)
          "" ["C", "D"] :=
  ⟨by decide,
    sibling_branches_share_no_path_state [("A", ["B", "C", "D"]), ("B", ["A"])] 5 "" 4 1
      ["A"] "" ["B"] ["C", "D"] (by decide)⟩

/-! ### Filtering (C2) -/

theorem printTreeRec_unfiltered (g : Graph) (maxDepth : Nat) (fil : String) :
    ∀ fuel node depth pre path pp, ∀ l ∈ printTreeRec g maxDepth fil fuel node depth pre path pp,
      isFiltered fil l.name = false := by
  intro fuel
  induction fuel with
  | zero => intro node depth pre path pp l hl; simp [printTreeRec] at hl
  | succ fuel ih =>
    intro node depth pre path pp l hl
    rw [printTreeRec] at hl
    by_cases h1 : isFiltered fil node = true
    · simp [h1] at hl
    · simp only [Bool.not_eq_true] at h1
      simp only [h1, Bool.false_eq_true, if_false] at hl
      by_cases h2 : node ∈ path
      · simp only [if_pos h2, List.mem_singleton] at hl
        subst hl; exact h1
      · rw [if_neg h2] at hl
        by_cases h3 : maxDepth ≤ depth
        · simp only [if_pos h3, List.mem_singleton] at hl
          subst hl; exact h1
        · rw [if_neg h3, List.mem_cons] at hl
          rcases hl with hl | hl
          · subst hl; exact h1
          · obtain ⟨d, _, conn, cont, hmem⟩ := mem_renderChildren hl
            exact ih d (depth + 1) conn (node :: path) cont l hmem

/-- Unfolds one step of `dfsGo` through the named dependency fold. -/
def dfsFold (g : Graph) (fil : String) (fuel : Nat) (ds : List String) (st : DfsState) :
    DfsState :=
  ds.foldl (fun s d => dfsGo g fil fuel d s) st

theorem dfsGo_succ (g : Graph) (fil : String) (fuel : Nat) (node : String) (st : DfsState) :
    dfsGo g fil (fuel + 1) node st =
      if isFiltered fil node then st
      else if node ∈ st.recursionStack then { st with cycles := node :: st.cycles }
      else if node ∈ st.visited then st
      else
        let st2 := dfsFold g fil fuel (sortedDeps g fil node)
          { st with recursionStack := node :: st.recursionStack }
        { order := st2.order ++ [node]
          visited := node :: st2.visited
          recursionStack := st2.recursionStack.erase node
          cycles := st2.cycles } := rfl

theorem dfsFold_nil (g : Graph) (fil : String) (fuel : Nat) (st : DfsState) :
    dfsFold g fil fuel [] st = st := rfl

theorem dfsFold_cons (g : Graph) (fil : String) (fuel : Nat) (d : String) (ds : List String)
    (st : DfsState) :
    dfsFold g fil fuel (d :: ds) st = dfsFold g fil fuel ds (dfsGo g fil fuel d st) := rfl

theorem dfsGo_unfiltered (g : Graph) (fil : String) : ∀ fuel node st x,
    (x ∈ (dfsGo g fil fuel node st).order → x ∈ st.order ∨ isFiltered fil x = false) ∧
    (x ∈ (dfsGo g fil fuel node st).cycles → x ∈ st.cycles ∨ isFiltered fil x = false) := by
  intro fuel
  induction fuel with
  | zero => intro node st x; exact ⟨fun h => Or.inl h, fun h => Or.inl h⟩
  | succ fuel ih =>
    have hfold : ∀ ds st₀ x,
        (x ∈ (dfsFold g fil fuel ds st₀).order → x ∈ st₀.order ∨ isFiltered fil x = false) ∧
        (x ∈ (dfsFold g fil fuel ds st₀).cycles → x ∈ st₀.cycles ∨ isFiltered fil x = false) := by
      intro ds
      induction ds with
      | nil => intro st₀ x; rw [dfsFold_nil]; exact ⟨fun h => Or.inl h, fun h => Or.inl h⟩
      | cons d ds ihds =>
        intro st₀ x
        rw [dfsFold_cons]
        constructor
        · intro hx
          rcases (ihds (dfsGo g fil fuel d st₀) x).1 hx with h | h
          · exact (ih d st₀ x).1 h
          · exact Or.inr h
        · intro hx
          rcases (ihds (dfsGo g fil fuel d st₀) x).2 hx with h | h
          · exact (ih d st₀ x).2 h
          · exact Or.inr h
    intro node st x
    rw [dfsGo_succ]
    by_cases h1 : isFiltered fil node = true
    · simp only [h1, if_true]
      exact ⟨fun h => Or.inl h, fun h => Or.inl h⟩
    · simp only [Bool.not_eq_true] at h1
      simp only [h1, Bool.false_eq_true, if_false]
      by_cases h2 : node ∈ st.recursionStack
      · simp only [if_pos h2]
        refine ⟨fun h => Or.inl h, fun h => ?_⟩
        rcases List.mem_cons.mp h with h | h
        · subst h; exact Or.inr h1
        · exact Or.inl h
      · rw [if_neg h2]
        by_cases h3 : node ∈ st.visited
        · simp only [if_pos h3]
          exact ⟨fun h => Or.inl h, fun h => Or.inl h⟩
        · rw [if_neg h3]
          refine ⟨fun hx => ?_, fun hx => ?_⟩
          · simp only [List.mem_append, List.mem_singleton] at hx
            rcases hx with hx | hx
            · rcases (hfold (sortedDeps g fil node)
                  { st with recursionStack := node :: st.recursionStack } x).1 hx with h | h
              · exact Or.inl h
              · exact Or.inr h
            · subst hx; exact Or.inr h1
          · rcases (hfold (sortedDeps g fil node)
                { st with recursionStack := node :: st.recursionStack } x).2 hx with h | h
            · exact Or.inl h
            · exact Or.inr h

theorem notFiltered_notContains {fil x : String} (hf : fil ≠ "") (h : isFiltered fil x = false) :
    strContains x fil = false := by
  unfold isFiltered at h
  cases hc : fil.data with
  | nil => exact absurd (congrArg String.mk hc) hf
  | cons c cs =>
    rw [hc] at h
    simpa using h

/-- C2 (counterexample to the claim as stated): `run_test_mode` prints the
root's line before any filter check (source line 200), so with root `test`
and filter `test` the renderer emits a line whose node name contains the
filter substring. -/
theorem render_emits_filtered_root_counterexample :
    run_test_mode [("test", [])] "test" 5 "test" = some [⟨"", "test", ""⟩] ∧
      strContains "test" "test" = true := by
  constructor <;> decide

/-- C2 (amended): for a non-empty filter substring, no line emitted by the
renderer below the root has a name containing the substring, and no entry of
the resolver's order or cycles contains it — including the resolver's start
node, which is filtered like any other; only the renderer's root line is
exempt (it is printed before the filter is consulted). -/
theorem filter_excludes_matching_names (g : Graph) (pkg start fil : String) (maxDepth : Nat)
    (hf : fil ≠ "") :
    (∀ lines, run_test_mode g pkg maxDepth fil = some lines →
      ∀ l ∈ lines.tail, strContains l.name fil = false) ∧
    (∀ n ∈ (computeLoadOrder g start fil).1, strContains n fil = false) ∧
    (∀ n ∈ (computeLoadOrder g start fil).2, strContains n fil = false) := by
  refine ⟨?_, ?_, ?_⟩
  · intro lines hlines l hl
    unfold run_test_mode at hlines
    by_cases hk : hasKey g pkg = true
    · rw [if_pos hk] at hlines
      obtain rfl := Option.some.inj hlines
      simp only [List.tail_cons] at hl
      obtain ⟨d, _, conn, cont, hmem⟩ := mem_renderChildren hl
      exact notFiltered_notContains hf
        (printTreeRec_unfiltered g maxDepth fil maxDepth d 1 conn [pkg] cont l hmem)
    · simp only [Bool.not_eq_true] at hk
      rw [hk] at hlines
      simp at hlines
  · intro n hn
    have := (dfsGo_unfiltered g fil (dfsFuel g start) start ⟨[], [], [], []⟩ n).1 hn
    rcases this with h | h
    · simp at h
    · exact notFiltered_notContains hf h
  · intro n hn
    have := (dfsGo_unfiltered g fil (dfsFuel g start) start ⟨[], [], [], []⟩ n).2 hn
    rcases this with h | h
    · simp at h
    · exact notFiltered_notContains hf h

theorem filter_excludes_matching_names_witness :
    ("test" : String) ≠ "" ∧
      ((∀ lines,
          run_test_mode [("A", ["testutils", "core"]), ("testutils", ["mocklib"]), ("core", [])]
              "A" 5 "test" = some lines →
          ∀ l ∈ lines.tail, strContains l.name "test" = false) ∧
        (∀ n ∈ (computeLoadOrder
            [("A", ["testutils", "core"]), ("testutils", ["mocklib"]), ("core", [])]
            "A" "test").1, strContains n "test" = false) ∧
        (∀ n ∈ (computeLoadOrder
            [("A", ["testutils", "core"]), ("testutils", ["mocklib"]), ("core", [])]
            "A" "test").2, strContains n "test" = false)) :=
  ⟨by decide,
    filter_excludes_matching_names
      [("A", ["testutils", "core"]), ("testutils", ["mocklib"]), ("core", [])]
      "A" "A" "test" 5 (by decide)⟩

/-! ### Loader lemmas (C7, C10) -/

/-- Keys of the dictionary, in insertion order. -/
def keys (g : Graph) : List String := g.map Prod.fst

/-- The package names parsed from the left of a colon over a list of input
lines. -/
def pkgNames (ls : List String) : List String :=
  ls.filterMap (fun l => (parseLine l).map Prod.fst)

theorem hasKey_iff_mem_keys {g : Graph} {n : String} : hasKey g n = true ↔ n ∈ keys g := by
  induction g with
  | nil => simp [hasKey, gFind, keys]
  | cons p g ih =>
    simp only [hasKey, gFind, keys, List.map_cons, List.mem_cons] at ih ⊢
    by_cases h : p.1 = n
    · rw [List.find?_cons_of_pos _ (by simp [h])]
      simp [h]
    · rw [List.find?_cons_of_neg _ (by simp [h])]
      rw [ih]
      constructor
      · exact fun hm => Or.inr hm
      · rintro (h' | hm)
        · exact absurd h'.symm h
        · exact hm

theorem gFind_eq_some {g : Graph} {n : String} {p : String × List String}
    (h : gFind g n = some p) : p ∈ g ∧ p.1 = n := by
  refine ⟨List.mem_of_find?_eq_some h, ?_⟩
  have := List.find?_some h
  simpa using this

theorem gFind_of_mem_nodup {g : Graph} {p : String × List String}
    (hk : (keys g).Nodup) (hp : p ∈ g) : gFind g p.1 = some p := by
  induction g with
  | nil => simp at hp
  | cons q g ih =>
    simp only [keys, List.map_cons, List.nodup_cons] at hk
    rcases List.mem_cons.mp hp with rfl | hp
    · exact List.find?_cons_of_pos _ (by simp)
    · have hne : q.1 ≠ p.1 := by
        intro he
        exact hk.1 (he ▸ List.mem_map_of_mem Prod.fst hp)
      rw [gFind, List.find?_cons_of_neg _ (by simp [hne])]
      exact ih hk.2 hp

theorem lookupDeps_ensureKey (g : Graph) (k q : String) :
    lookupDeps (ensureKey g k) q = lookupDeps g q := by
  unfold ensureKey
  by_cases h : hasKey g k = true
  · rw [if_pos h]
  · rw [if_neg (by simp [h])]
    unfold lookupDeps gFind
    rw [List.find?_append]
    cases hf : List.find? (fun p => p.1 == q) g with
    | some p => simp
    | none =>
      simp only [Option.none_or]
      by_cases hq : k = q
      · subst hq
        rw [List.find?_cons_of_pos _ (by simp)]
        rfl
      · rw [List.find?_cons_of_neg _ (by simp [hq])]
        rfl

theorem hasKey_ensureKey_iff {g : Graph} {k q : String} :
    hasKey (ensureKey g k) q = true ↔ hasKey g q = true ∨ q = k := by
  unfold ensureKey
  by_cases h : hasKey g k = true
  · rw [if_pos h]
    constructor
    · exact fun h' => Or.inl h'
    · rintro (h' | rfl)
      · exact h'
      · exact h
  · rw [if_neg (by simp [h])]
    rw [hasKey_iff_mem_keys, hasKey_iff_mem_keys]
    simp only [keys, List.map_append, List.map_cons, List.map_nil, List.mem_append,
      List.mem_singleton]

theorem keys_ensureKey_nodup {g : Graph} {k : String} (h : (keys g).Nodup) :
    (keys (ensureKey g k)).Nodup := by
  unfold ensureKey
  by_cases hk : hasKey g k = true
  · rw [if_pos hk]; exact h
  · rw [if_neg (by simp [hk])]
    have hnk : k ∉ keys g := fun hm => by simp [hasKey_iff_mem_keys.mpr hm] at hk
    simp only [keys, List.map_append, List.map_cons, List.map_nil]
    rw [List.nodup_append]
    refine ⟨h, List.nodup_singleton k, ?_⟩
    intro a ha hb
    simp only [List.mem_singleton] at hb
    subst hb
    exact hnk ha

theorem vals_ensureKey_nodup {g : Graph} {k : String} (h : ∀ p ∈ g, p.2.Nodup) :
    ∀ p ∈ ensureKey g k, p.2.Nodup := by
  intro p hp
  unfold ensureKey at hp
  by_cases hk : hasKey g k = true
  · rw [if_pos hk] at hp; exact h p hp
  · rw [if_neg (by simp [hk])] at hp
    rcases List.mem_append.mp hp with hp | hp
    · exact h p hp
    · simp only [List.mem_singleton] at hp
      subst hp
      exact List.nodup_nil

theorem addDeps_entry_fst (n : String) (ds : List String) (p : String × List String) :
    (if p.1 == n then (p.1, p.2 ++ (ds.dedup.filter (fun d => !(p.2.contains d)))) else p).1 =
      p.1 := by
  by_cases hn : p.1 = n <;> simp [hn]

theorem gFind_addDeps (g : Graph) (n : String) (ds : List String) (q : String) :
    gFind (addDeps g n ds) q = (gFind g q).map (fun p =>
      if p.1 == n then (p.1, p.2 ++ (ds.dedup.filter (fun d => !(p.2.contains d)))) else p) := by
  induction g with
  | nil => rfl
  | cons p g ih =>
    unfold addDeps at ih ⊢
    rw [List.map_cons]
    simp only [gFind] at ih ⊢
    by_cases h : p.1 = q
    · rw [List.find?_cons_of_pos _ (by simp only [addDeps_entry_fst]; simp [h]),
        List.find?_cons_of_pos _ (by simp [h])]
      rfl
    · rw [List.find?_cons_of_neg _ (by simp only [addDeps_entry_fst]; simp [h]),
        List.find?_cons_of_neg _ (by simp [h])]
      exact ih

theorem hasKey_addDeps (g : Graph) (n : String) (ds : List String) (q : String) :
    hasKey (addDeps g n ds) q = hasKey g q := by
  unfold hasKey
  rw [gFind_addDeps]
  cases gFind g q <;> rfl

theorem mem_lookupDeps_addDeps {g : Graph} {n : String} {ds : List String} {q d : String} :
    d ∈ lookupDeps (addDeps g n ds) q ↔
      d ∈ lookupDeps g q ∨ (q = n ∧ hasKey g n = true ∧ d ∈ ds) := by
  unfold lookupDeps
  rw [gFind_addDeps]
  cases hf : gFind g q with
  | none =>
    constructor
    · intro h; simp at h
    · rintro (h | ⟨rfl, hk, hd⟩)
      · simp at h
      · simp [hasKey, hf] at hk
  | some p =>
    obtain ⟨hpg, hpq⟩ := gFind_eq_some hf
    subst hpq
    by_cases hn : p.1 = n
    · have hk : hasKey g n = true := by
        have hfn : gFind g n = some p := hn ▸ hf
        simp [hasKey, hfn]
      have hmap : (Option.map Prod.snd (Option.map (fun p =>
          if p.1 == n then (p.1, p.2 ++ (ds.dedup.filter (fun d => !(p.2.contains d)))) else p)
          (some p))).getD [] = p.2 ++ (ds.dedup.filter (fun d => !(p.2.contains d))) := by
        simp [hn]
      rw [hmap]
      rw [List.mem_append, List.mem_filter, List.mem_dedup]
      constructor
      · rintro (h | ⟨hd, _⟩)
        · exact Or.inl h
        · exact Or.inr ⟨hn, hk, hd⟩
      · rintro (h | ⟨_, _, hd⟩)
        · exact Or.inl h
        · by_cases hmem : d ∈ p.2
          · exact Or.inl hmem
          · exact Or.inr ⟨hd, by simpa using hmem⟩
    · have hmap : (Option.map Prod.snd (Option.map (fun p =>
          if p.1 == n then (p.1, p.2 ++ (ds.dedup.filter (fun d => !(p.2.contains d)))) else p)
          (some p))).getD [] = p.2 := by
        simp [hn]
      rw [hmap]
      constructor
      · intro h
        exact Or.inl (by simpa [lookupDeps, hf] using h)
      · rintro (h | ⟨hq, hk, hd⟩)
        · simpa [lookupDeps, hf] using h
        · exact absurd hq hn

theorem keys_addDeps (g : Graph) (n : String) (ds : List String) :
    keys (addDeps g n ds) = keys g := by
  unfold keys addDeps
  rw [List.map_map]
  apply List.map_congr_left
  intro p _
  simp only [Function.comp_apply]
  exact addDeps_entry_fst n ds p

theorem vals_addDeps_nodup {g : Graph} {n : String} {ds : List String}
    (h : ∀ p ∈ g, p.2.Nodup) : ∀ p ∈ addDeps g n ds, p.2.Nodup := by
  intro p hp
  unfold addDeps at hp
  obtain ⟨p₀, hp₀, he⟩ := List.mem_map.mp hp
  by_cases hn : p₀.1 = n
  · rw [if_pos (by simp [hn])] at he
    subst he
    rw [List.nodup_append]
    refine ⟨h p₀ hp₀, (List.nodup_dedup ds).filter _, ?_⟩
    intro a ha hb
    have hc := (List.mem_filter.mp hb).2
    simp only [Bool.not_eq_true'] at hc
    exact absurd ha (by simpa using hc)
  · rw [if_neg (by simp [hn])] at he
    subst he
    exact h p₀ hp₀

theorem lookupDeps_foldEnsure (ds : List String) (g₀ : Graph) (q : String) :
    lookupDeps (ds.foldl (fun gg dd => ensureKey gg dd) g₀) q = lookupDeps g₀ q := by
  induction ds generalizing g₀ with
  | nil => rfl
  | cons d ds ih =>
    rw [List.foldl_cons, ih, lookupDeps_ensureKey]

theorem hasKey_foldEnsure_iff (ds : List String) (g₀ : Graph) (q : String) :
    hasKey (ds.foldl (fun gg dd => ensureKey gg dd) g₀) q = true ↔
      hasKey g₀ q = true ∨ q ∈ ds := by
  induction ds generalizing g₀ with
  | nil => simp
  | cons d ds ih =>
    rw [List.foldl_cons, ih, hasKey_ensureKey_iff]
    simp only [List.mem_cons]
    tauto

theorem keys_foldEnsure_nodup (ds : List String) {g₀ : Graph} (h : (keys g₀).Nodup) :
    (keys (ds.foldl (fun gg dd => ensureKey gg dd) g₀)).Nodup := by
  induction ds generalizing g₀ with
  | nil => exact h
  | cons d ds ih => exact ih (keys_ensureKey_nodup h)

theorem vals_foldEnsure_nodup (ds : List String) {g₀ : Graph} (h : ∀ p ∈ g₀, p.2.Nodup) :
    ∀ p ∈ ds.foldl (fun gg dd => ensureKey gg dd) g₀, p.2.Nodup := by
  induction ds generalizing g₀ with
  | nil => exact h
  | cons d ds ih => exact ih (vals_ensureKey_nodup h)

/-- Invariant of the loader's line-processing fold: keys are unique, stored
sets have no duplicates, a name's dependency members are exactly the union of
the tokens of its processed lines, and every parsed package and token is a
key. -/
structure LoadInv (ls : List String) (g : Graph) : Prop where
  keysNodup : (keys g).Nodup
  valsNodup : ∀ p ∈ g, p.2.Nodup
  memChar : ∀ q d : String, d ∈ lookupDeps g q ↔
    ∃ l ∈ ls, ∃ ts, parseLine l = some (q, ts) ∧ d ∈ ts
  keysCovered : ∀ l ∈ ls, ∀ q ts, parseLine l = some (q, ts) →
    hasKey g q = true ∧ ∀ d ∈ ts, hasKey g d = true

theorem applyLine_inv {ls : List String} {g : Graph} (h : LoadInv ls g) (line : String) :
    LoadInv (ls ++ [line]) (applyLine g line) := by
  unfold applyLine
  cases hp : parseLine line with
  | none =>
    refine ⟨h.keysNodup, h.valsNodup, ?_, ?_⟩
    · intro q d
      rw [h.memChar q d]
      constructor
      · rintro ⟨l, hl, ts, hts, hd⟩
        exact ⟨l, by simp [hl], ts, hts, hd⟩
      · rintro ⟨l, hl, ts, hts, hd⟩
        rcases List.mem_append.mp hl with hl | hl
        · exact ⟨l, hl, ts, hts, hd⟩
        · simp only [List.mem_singleton] at hl
          subst hl
          rw [hp] at hts
          exact absurd hts (by simp)
    · intro l hl q ts hts
      rcases List.mem_append.mp hl with hl | hl
      · exact h.keysCovered l hl q ts hts
      · simp only [List.mem_singleton] at hl
        subst hl
        rw [hp] at hts
        exact absurd hts (by simp)
  | some pr =>
    obtain ⟨pkg, ds⟩ := pr
    have hkEns : hasKey (ensureKey g pkg) pkg = true := hasKey_ensureKey_iff.mpr (Or.inr rfl)
    refine ⟨?_, ?_, ?_, ?_⟩
    · apply keys_foldEnsure_nodup
      rw [keys_addDeps]
      exact keys_ensureKey_nodup h.keysNodup
    · apply vals_foldEnsure_nodup
      exact vals_addDeps_nodup (vals_ensureKey_nodup h.valsNodup)
    · intro q d
      rw [lookupDeps_foldEnsure, mem_lookupDeps_addDeps, lookupDeps_ensureKey,
        h.memChar q d]
      constructor
      · rintro (⟨l, hl, ts, hts, hd⟩ | ⟨rfl, _, hd⟩)
        · exact ⟨l, by simp [hl], ts, hts, hd⟩
        · exact ⟨line, by simp, ds, hp, hd⟩
      · rintro ⟨l, hl, ts, hts, hd⟩
        rcases List.mem_append.mp hl with hl | hl
        · exact Or.inl ⟨l, hl, ts, hts, hd⟩
        · simp only [List.mem_singleton] at hl
          subst hl
          rw [hp] at hts
          have hpair := Option.some.inj hts
          obtain ⟨hq, hds⟩ : pkg = q ∧ ds = ts :=
            ⟨congrArg Prod.fst hpair, congrArg Prod.snd hpair⟩
          subst hq
          subst hds
          exact Or.inr ⟨rfl, hkEns, hd⟩
    · intro l hl q ts hts
      have hmono : ∀ x, hasKey g x = true →
          hasKey (ds.foldl (fun gg dd => ensureKey gg dd)
            (addDeps (ensureKey g pkg) pkg ds)) x = true := by
        intro x hx
        apply (hasKey_foldEnsure_iff ds _ x).mpr
        left
        rw [hasKey_addDeps]
        exact hasKey_ensureKey_iff.mpr (Or.inl hx)
      rcases List.mem_append.mp hl with hl | hl
      · obtain ⟨h1, h2⟩ := h.keysCovered l hl q ts hts
        exact ⟨hmono q h1, fun d hd => hmono d (h2 d hd)⟩
      · simp only [List.mem_singleton] at hl
        subst hl
        rw [hp] at hts
        have hpair := Option.some.inj hts
        obtain ⟨hq, hds⟩ : pkg = q ∧ ds = ts :=
          ⟨congrArg Prod.fst hpair, congrArg Prod.snd hpair⟩
        subst hq
        subst hds
        constructor
        · apply (hasKey_foldEnsure_iff _ _ _).mpr
          left
          rw [hasKey_addDeps]
          exact hkEns
        · intro d hd
          exact (hasKey_foldEnsure_iff _ _ _).mpr (Or.inr hd)

theorem load_inv_aux : ∀ ls ls₀ : List String, ∀ g₀ : Graph,
    LoadInv ls₀ g₀ → LoadInv (ls₀ ++ ls) (ls.foldl applyLine g₀) := by
  intro ls
  induction ls with
  | nil => intro ls₀ g₀ h; simpa using h
  | cons l ls ih =>
    intro ls₀ g₀ h
    rw [List.foldl_cons]
    have := ih (ls₀ ++ [l]) (applyLine g₀ l) (applyLine_inv h l)
    simpa [List.append_assoc] using this

theorem load_inv (ls : List String) : LoadInv ls (load_test_graph ls) := by
  have h0 : LoadInv [] ([] : Graph) := by
    refine ⟨List.nodup_nil, by simp, ?_, by simp⟩
    intro q d
    simp [lookupDeps, gFind]
  simpa using load_inv_aux ls [] [] h0

/-- C7: the loaded graph satisfies the closure invariant — every name that
occurs as a dependency member of some entry is itself a key, and a key that
never appears to the left of a colon in a (parseable) input line has an empty
dependency set. -/
theorem loader_closure_invariant (ls : List String) :
    (∀ p ∈ load_test_graph ls, ∀ d ∈ p.2, hasKey (load_test_graph ls) d = true) ∧
    (∀ q, hasKey (load_test_graph ls) q = true → q ∉ pkgNames ls →
      lookupDeps (load_test_graph ls) q = []) := by
  have h := load_inv ls
  constructor
  · intro p hp d hd
    have hfind : gFind (load_test_graph ls) p.1 = some p := gFind_of_mem_nodup h.keysNodup hp
    have hlu : d ∈ lookupDeps (load_test_graph ls) p.1 := by
      simp [lookupDeps, hfind, hd]
    obtain ⟨l, hl, ts, hts, hd2⟩ := (h.memChar p.1 d).mp hlu
    exact (h.keysCovered l hl p.1 ts hts).2 d hd2
  · intro q _hk hnp
    rw [List.eq_nil_iff_forall_not_mem]
    intro d hd
    obtain ⟨l, hl, ts, hts, _⟩ := (h.memChar q d).mp hd
    apply hnp
    unfold pkgNames
    exact List.mem_filterMap.mpr ⟨l, hl, by simp [hts]⟩

theorem loader_closure_invariant_witness :
    (∀ p ∈ load_test_graph ["A: B C", "B: D"], ∀ d ∈ p.2,
      hasKey (load_test_graph ["A: B C", "B: D"]) d = true) ∧
    (∀ q, hasKey (load_test_graph ["A: B C", "B: D"]) q = true →
      q ∉ pkgNames ["A: B C", "B: D"] →
      lookupDeps (load_test_graph ["A: B C", "B: D"]) q = []) :=
  loader_closure_invariant ["A: B C", "B: D"]

/-- C10: lines naming the same package merge — a name's dependency set in the
loaded graph contains exactly the tokens contributed by all of its input
lines (union semantics, duplicates collapsed; no line replaces an earlier
one). -/
theorem loader_merges_duplicate_package_lines (ls : List String) (pkg : String) :
    (∀ d, d ∈ lookupDeps (load_test_graph ls) pkg ↔
      ∃ l ∈ ls, ∃ ts, parseLine l = some (pkg, ts) ∧ d ∈ ts) ∧
    (lookupDeps (load_test_graph ls) pkg).Nodup := by
  have h := load_inv ls
  refine ⟨fun d => h.memChar pkg d, ?_⟩
  unfold lookupDeps
  cases hf : gFind (load_test_graph ls) pkg with
  | none => simp
  | some p =>
    have := h.valsNodup p (gFind_eq_some hf).1
    simpa using this

theorem loader_merges_duplicate_package_lines_witness :
    (∀ d, d ∈ lookupDeps (load_test_graph ["A: B C", "A: C D"]) "A" ↔
      ∃ l ∈ ["A: B C", "A: C D"], ∃ ts, parseLine l = some ("A", ts) ∧ d ∈ ts) ∧
    (lookupDeps (load_test_graph ["A: B C", "A: C D"]) "A").Nodup :=
  loader_merges_duplicate_package_lines ["A: B C", "A: C D"] "A"

/-! ### Reverse-topological order correctness (C1) -/

/-- Dependency edge surviving the filter: `b` is listed by `sortedDeps` for
`a` (so `b` is a stored dependency of `a` and is itself unfiltered). -/
def depEdge (g : Graph) (fil : String) (a b : String) : Prop := b ∈ sortedDeps g fil a

/-- Reachability along unfiltered dependency edges. -/
def ReachF (g : Graph) (fil : String) : String → String → Prop :=
  Relation.ReflTransGen (depEdge g fil)

/-- Strict precedence of `b` over `a` in an emitted order. -/
def precedes (l : List String) (b a : String) : Prop :=
  b ∈ l ∧ a ∈ l ∧ l.indexOf b < l.indexOf a

theorem precedes_append {l : List String} {b a : String} (h : precedes l b a)
    (l₂ : List String) : precedes (l ++ l₂) b a := by
  obtain ⟨hb, ha, hlt⟩ := h
  refine ⟨List.mem_append_left _ hb, List.mem_append_left _ ha, ?_⟩
  rw [List.indexOf_append_of_mem hb, List.indexOf_append_of_mem ha]
  exact hlt

theorem precedes_snoc {l : List String} {b a : String} (hb : b ∈ l) (ha : a ∉ l) :
    precedes (l ++ [a]) b a := by
  refine ⟨List.mem_append_left _ hb, List.mem_append_right _ (by simp), ?_⟩
  rw [List.indexOf_append_of_mem hb, List.indexOf_append_of_not_mem ha]
  exact lt_of_lt_of_le (List.indexOf_lt_length.mpr hb) (Nat.le_add_right _ _)

theorem chain_reach {g : Graph} {fil : String} : ∀ {x : String} {xs : List String},
    List.Chain' (fun a b => depEdge g fil b a) (x :: xs) →
    ∀ b ∈ x :: xs, ReachF g fil b x := by
  intro x xs
  induction xs generalizing x with
  | nil =>
    intro _ b hb
    simp only [List.mem_singleton] at hb
    subst hb
    exact Relation.ReflTransGen.refl
  | cons y ys ih =>
    intro hch b hb
    have hedge : depEdge g fil y x := (List.chain'_cons.mp hch).1
    have hch2 := (List.chain'_cons.mp hch).2
    rcases List.mem_cons.mp hb with rfl | hb
    · exact Relation.ReflTransGen.refl
    · exact Relation.ReflTransGen.tail (ih hch2 b hb) hedge

theorem length_le_of_nodup_subset {l U : List String} (hn : l.Nodup)
    (hs : ∀ x ∈ l, x ∈ U) : l.length ≤ U.length := by
  calc l.length = l.toFinset.card := (List.toFinset_card_of_nodup hn).symm
    _ ≤ U.toFinset.card := Finset.card_le_card (fun x hx => by
        rw [List.mem_toFinset] at hx ⊢
        exact hs x hx)
    _ ≤ U.length := List.toFinset_card_le U

theorem mem_nodesOf_of_mem_lookupDeps {g : Graph} {n b : String}
    (h : b ∈ lookupDeps g n) : b ∈ nodesOf g := by
  unfold lookupDeps at h
  cases hf : gFind g n with
  | none => rw [hf] at h; simp at h
  | some p =>
    rw [hf] at h
    simp at h
    obtain ⟨hpg, hpq⟩ := gFind_eq_some hf
    unfold nodesOf
    refine List.mem_append.mpr (Or.inr (List.mem_flatMap.mpr ⟨n, ?_, ?_⟩))
    · rw [← hpq]
      exact List.mem_map_of_mem Prod.fst hpg
    · unfold lookupDeps
      rw [hf]
      simpa using h

/-- Invariant carried through `dfsGo`: the recursion stack is a chain of
unfiltered dependency edges (newest first) of distinct, in-universe names
disjoint from `visited`; `visited` and `order` hold the same names without
duplicates; and every finished node's unfiltered dependencies either precede
it in the order or reach back to it. -/
structure DfsInv (g : Graph) (fil : String) (U : List String) (st : DfsState) : Prop where
  chain : List.Chain' (fun a b => depEdge g fil b a) st.recursionStack
  stackUnf : ∀ x ∈ st.recursionStack, isFiltered fil x = false
  stackNodup : st.recursionStack.Nodup
  stackU : ∀ x ∈ st.recursionStack, x ∈ U
  visOrder : ∀ x, x ∈ st.visited ↔ x ∈ st.order
  orderNodup : st.order.Nodup
  done : ∀ a ∈ st.order, ∀ b, depEdge g fil a b → precedes st.order b a ∨ ReachF g fil b a
  stackFresh : ∀ x ∈ st.recursionStack, x ∉ st.visited

theorem dfsGo_deep (g : Graph) (fil : String) (fuel : Nat) (node : String) (st : DfsState)
    (h1 : isFiltered fil node = false) (h2 : node ∉ st.recursionStack)
    (h3 : node ∉ st.visited) :
    dfsGo g fil (fuel + 1) node st =
      { order := (dfsFold g fil fuel (sortedDeps g fil node)
          { st with recursionStack := node :: st.recursionStack }).order ++ [node]
        visited := node :: (dfsFold g fil fuel (sortedDeps g fil node)
          { st with recursionStack := node :: st.recursionStack }).visited
        recursionStack := (dfsFold g fil fuel (sortedDeps g fil node)
          { st with recursionStack := node :: st.recursionStack }).recursionStack.erase node
        cycles := (dfsFold g fil fuel (sortedDeps g fil node)
          { st with recursionStack := node :: st.recursionStack }).cycles } := by
  rw [dfsGo_succ]
  simp only [h1, Bool.false_eq_true, if_false, if_neg h2, if_neg h3]

theorem dfsGo_zero (g : Graph) (fil : String) (node : String) (st : DfsState) :
    dfsGo g fil 0 node st = st := rfl

theorem dfsGo_spec (g : Graph) (fil : String) (U : List String)
    (hclosed : ∀ n b, depEdge g fil n b → b ∈ U) :
    ∀ fuel node st, DfsInv g fil U st → node ∈ U →
      (∀ x, st.recursionStack.head? = some x → depEdge g fil x node) →
      U.length + 1 ≤ fuel + st.recursionStack.length →
      DfsInv g fil U (dfsGo g fil fuel node st) ∧
      (dfsGo g fil fuel node st).recursionStack = st.recursionStack ∧
      (∃ Δ, (dfsGo g fil fuel node st).order = st.order ++ Δ) ∧
      (isFiltered fil node = false → node ∉ st.recursionStack →
        node ∈ (dfsGo g fil fuel node st).visited) := by
  intro fuel
  induction fuel with
  | zero =>
    intro node st hinv _ _ hfuel
    rw [dfsGo_zero]
    refine ⟨hinv, rfl, ⟨[], (List.append_nil _).symm⟩, fun _ _ => ?_⟩
    exfalso
    have := length_le_of_nodup_subset hinv.stackNodup hinv.stackU
    omega
  | succ fuel ih =>
    intro node st hinv hnU hhead hfuel
    by_cases h1 : isFiltered fil node = true
    · have heq : dfsGo g fil (fuel + 1) node st = st := by
        rw [dfsGo_succ]
        simp [h1]
      rw [heq]
      exact ⟨hinv, rfl, ⟨[], (List.append_nil _).symm⟩, fun hf _ => by simp [h1] at hf⟩
    · simp only [Bool.not_eq_true] at h1
      by_cases h2 : node ∈ st.recursionStack
      · have heq : dfsGo g fil (fuel + 1) node st = { st with cycles := node :: st.cycles } := by
          rw [dfsGo_succ]
          simp [h1, h2]
        rw [heq]
        exact ⟨⟨hinv.chain, hinv.stackUnf, hinv.stackNodup, hinv.stackU, hinv.visOrder,
          hinv.orderNodup, hinv.done, hinv.stackFresh⟩, rfl, ⟨[], (List.append_nil _).symm⟩,
          fun _ hns => absurd h2 hns⟩
      · by_cases h3 : node ∈ st.visited
        · have heq : dfsGo g fil (fuel + 1) node st = st := by
            rw [dfsGo_succ]
            simp [h1, h2, h3]
          rw [heq]
          exact ⟨hinv, rfl, ⟨[], (List.append_nil _).symm⟩, fun _ _ => h3⟩
        · have hfold : ∀ ds : List String, (∀ d ∈ ds, depEdge g fil node d) →
              ∀ s : DfsState, DfsInv g fil U s →
              s.recursionStack = node :: st.recursionStack →
              U.length + 1 ≤ fuel + s.recursionStack.length →
              DfsInv g fil U (dfsFold g fil fuel ds s) ∧
              (dfsFold g fil fuel ds s).recursionStack = s.recursionStack ∧
              (∃ Δ, (dfsFold g fil fuel ds s).order = s.order ++ Δ) ∧
              (∀ d ∈ ds, d ∈ (dfsFold g fil fuel ds s).visited ∨ d ∈ s.recursionStack) := by
            intro ds
            induction ds with
            | nil =>
              intro _ s hs _ _
              rw [dfsFold_nil]
              exact ⟨hs, rfl, ⟨[], (List.append_nil _).symm⟩, by simp⟩
            | cons d ds ihds =>
              intro hds s hs hstk hfuel2
              rw [dfsFold_cons]
              have hd : depEdge g fil node d := hds d (List.mem_cons_self d ds)
              have hdU : d ∈ U := hclosed node d hd
              have hhead2 : ∀ x, s.recursionStack.head? = some x → depEdge g fil x d := by
                intro x hx
                rw [hstk] at hx
                simp only [List.head?_cons, Option.some.injEq] at hx
                subst hx
                exact hd
              obtain ⟨hinv1, hstk1, hΔ1, hproc1⟩ := ih d s hs hdU hhead2 hfuel2
              obtain ⟨hinv2, hstk2, hΔ2, hvis2⟩ :=
                ihds (fun x hx => hds x (List.mem_cons_of_mem d hx)) (dfsGo g fil fuel d s)
                  hinv1 (by rw [hstk1, hstk]) (by rw [hstk1]; exact hfuel2)
              refine ⟨hinv2, by rw [hstk2, hstk1], ?_, ?_⟩
              · obtain ⟨Δ1, he1⟩ := hΔ1
                obtain ⟨Δ2, he2⟩ := hΔ2
                exact ⟨Δ1 ++ Δ2, by rw [he2, he1, List.append_assoc]⟩
              · intro x hx
                rcases List.mem_cons.mp hx with rfl | hx
                · by_cases hmem : x ∈ s.recursionStack
                  · exact Or.inr hmem
                  · left
                    have hxunf : isFiltered fil x = false := sortedDeps_unfiltered hd
                    have hv1 : x ∈ (dfsGo g fil fuel x s).visited := hproc1 hxunf hmem
                    obtain ⟨Δ2, he2⟩ := hΔ2
                    rw [hinv2.visOrder x, he2, List.mem_append]
                    exact Or.inl ((hinv1.visOrder x).mp hv1)
                · rcases hvis2 x hx with h | h
                  · exact Or.inl h
                  · exact Or.inr (by rw [← hstk1]; exact h)
          have hinvPush : DfsInv g fil U { st with recursionStack := node :: st.recursionStack } := by
            refine ⟨?_, ?_, ?_, ?_, hinv.visOrder, hinv.orderNodup, hinv.done, ?_⟩
            · rw [List.chain'_cons']
              exact ⟨fun y hy => hhead y hy, hinv.chain⟩
            · intro x hx
              rcases List.mem_cons.mp hx with rfl | hx
              · exact h1
              · exact hinv.stackUnf x hx
            · exact List.nodup_cons.mpr ⟨h2, hinv.stackNodup⟩
            · intro x hx
              rcases List.mem_cons.mp hx with rfl | hx
              · exact hnU
              · exact hinv.stackU x hx
            · intro x hx
              rcases List.mem_cons.mp hx with rfl | hx
              · exact h3
              · exact hinv.stackFresh x hx
          obtain ⟨hinv2, hstk2x, hΔ2x, hvisAllx⟩ := hfold (sortedDeps g fil node)
            (fun d hd => hd) { st with recursionStack := node :: st.recursionStack } hinvPush rfl
            (by simp only [List.length_cons]; omega)
          have hstk2 : (dfsFold g fil fuel (sortedDeps g fil node)
              { st with recursionStack := node :: st.recursionStack }).recursionStack =
              node :: st.recursionStack := hstk2x
          have hΔ2 : ∃ Δ, (dfsFold g fil fuel (sortedDeps g fil node)
              { st with recursionStack := node :: st.recursionStack }).order =
              st.order ++ Δ := hΔ2x
          have hvisAll : ∀ d ∈ sortedDeps g fil node,
              d ∈ (dfsFold g fil fuel (sortedDeps g fil node)
                { st with recursionStack := node :: st.recursionStack }).visited ∨
              d ∈ node :: st.recursionStack := hvisAllx
          have hnode_stack2 : node ∈ (dfsFold g fil fuel (sortedDeps g fil node)
              { st with recursionStack := node :: st.recursionStack }).recursionStack := by
            rw [hstk2]
            exact List.mem_cons_self _ _
          have hnode_nvis2 := hinv2.stackFresh node hnode_stack2
          have hnode_nord2 : node ∉ (dfsFold g fil fuel (sortedDeps g fil node)
              { st with recursionStack := node :: st.recursionStack }).order :=
            fun h => hnode_nvis2 ((hinv2.visOrder node).mpr h)
          have herase : (dfsFold g fil fuel (sortedDeps g fil node)
              { st with recursionStack := node :: st.recursionStack }).recursionStack.erase node =
              st.recursionStack := by
            rw [hstk2]
            exact List.erase_cons_head node st.recursionStack
          have hchain2 : List.Chain' (fun a b => depEdge g fil b a)
              (node :: st.recursionStack) := by
            rw [← hstk2]
            exact hinv2.chain
          rw [dfsGo_deep g fil fuel node st h1 h2 h3]
          refine ⟨⟨?_, ?_, ?_, ?_, ?_, ?_, ?_, ?_⟩, herase, ?_, ?_⟩
          · show List.Chain' _ ((dfsFold g fil fuel (sortedDeps g fil node)
              { st with recursionStack := node :: st.recursionStack }).recursionStack.erase node)
            rw [herase]
            exact hinv.chain
          · intro x hx
            rw [herase] at hx
            exact hinv.stackUnf x hx
          · show ((dfsFold g fil fuel (sortedDeps g fil node)
              { st with recursionStack := node :: st.recursionStack }).recursionStack.erase
                node).Nodup
            rw [herase]
            exact hinv.stackNodup
          · intro x hx
            rw [herase] at hx
            exact hinv.stackU x hx
          · intro x
            have h := hinv2.visOrder x
            simp only [List.mem_cons, List.mem_append, List.mem_singleton]
            tauto
          · rw [List.nodup_append]
            refine ⟨hinv2.orderNodup, List.nodup_singleton node, ?_⟩
            intro a ha hb
            simp only [List.mem_singleton] at hb
            subst hb
            exact hnode_nord2 ha
          · intro a ha b hb
            rcases List.mem_append.mp ha with ha | ha
            · rcases hinv2.done a ha b hb with h | h
              · exact Or.inl (precedes_append h [node])
              · exact Or.inr h
            · simp only [List.mem_singleton] at ha
              have hb2 : depEdge g fil node b := ha ▸ hb
              rcases hvisAll b hb2 with hbv | hbs
              · refine Or.inl ?_
                rw [ha]
                exact precedes_snoc ((hinv2.visOrder b).mp hbv) hnode_nord2
              · refine Or.inr ?_
                rw [ha]
                exact chain_reach hchain2 b hbs
          · intro x hx
            rw [herase] at hx
            simp only [List.mem_cons, not_or]
            refine ⟨?_, ?_⟩
            · rintro rfl
              exact h2 hx
            · exact hinv2.stackFresh x (by rw [hstk2]; exact List.mem_cons_of_mem _ hx)
          · obtain ⟨Δ2, he2⟩ := hΔ2
            refine ⟨Δ2 ++ [node], ?_⟩
            show (dfsFold g fil fuel (sortedDeps g fil node)
              { st with recursionStack := node :: st.recursionStack }).order ++ [node] =
              st.order ++ (Δ2 ++ [node])
            rw [he2, List.append_assoc]
          · intro _ _
            exact List.mem_cons_self _ _

/-- C1: for every graph and start node, an unfiltered edge `A → B` whose
target has no unfiltered return path to `A` (the edge lies on no cycle) puts
`B` strictly before `A` wherever `A` appears in the order computed by
`computeLoadOrder` (`get_loading_order_dfs`): `B` is then also in the order,
at a strictly smaller position. -/
theorem dependency_precedes_dependent_in_load_order (g : Graph) (start fil A B : String)
    (hAB : depEdge g fil A B) (hA : isFiltered fil A = false)
    (hnc : ¬ ReachF g fil B A) :
    A ∈ (computeLoadOrder g start fil).1 →
      B ∈ (computeLoadOrder g start fil).1 ∧
      (computeLoadOrder g start fil).1.indexOf B <
        (computeLoadOrder g start fil).1.indexOf A := by
  intro hAmem
  have hclosed : ∀ n b, depEdge g fil n b → b ∈ (start :: nodesOf g).dedup := by
    intro n b hb
    rw [List.mem_dedup]
    exact List.mem_cons_of_mem _ (mem_nodesOf_of_mem_lookupDeps (mem_sortedDeps.mp hb).1)
  have hinit : DfsInv g fil ((start :: nodesOf g).dedup) ⟨[], [], [], []⟩ := by
    refine ⟨List.chain'_nil, ?_, List.nodup_nil, ?_, ?_, List.nodup_nil, ?_, ?_⟩ <;> simp
  obtain ⟨hinv', _, _, _⟩ := dfsGo_spec g fil ((start :: nodesOf g).dedup) hclosed
    (dfsFuel g start) start ⟨[], [], [], []⟩ hinit
    (by rw [List.mem_dedup]; exact List.mem_cons_self _ _)
    (by intro x hx; simp at hx)
    (by unfold dfsFuel; simp)
  have hAmem2 : A ∈ (dfsGo g fil (dfsFuel g start) start ⟨[], [], [], []⟩).order := hAmem
  rcases hinv'.done A hAmem2 B hAB with h | h
  · exact ⟨h.1, h.2.2⟩
  · exact absurd h hnc

theorem dependency_precedes_dependent_in_load_order_witness :
    depEdge [("A", ["B", "C"]), ("B", ["D"]), ("C", ["D"]), ("D", [])] "" "A" "B" ∧
    isFiltered "" "A" = false ∧
    ¬ ReachF [("A", ["B", "C"]), ("B", ["D"]), ("C", ["D"]), ("D", [])] "" "B" "A" ∧
    ("A" ∈ (computeLoadOrder [("A", ["B", "C"]), ("B", ["D"]), ("C", ["D"]), ("D", [])]
        "A" "").1 →
      "B" ∈ (computeLoadOrder [("A", ["B", "C"]), ("B", ["D"]), ("C", ["D"]), ("D", [])]
        "A" "").1 ∧
      (computeLoadOrder [("A", ["B", "C"]), ("B", ["D"]), ("C", ["D"]), ("D", [])]
          "A" "").1.indexOf "B" <
        (computeLoadOrder [("A", ["B", "C"]), ("B", ["D"]), ("C", ["D"]), ("D", [])]
          "A" "").1.indexOf "A") := by
  have hnr : ¬ ReachF [("A", ["B", "C"]), ("B", ["D"]), ("C", ["D"]), ("D", [])] "" "B" "A" := by
    intro h
    rcases Relation.ReflTransGen.cases_head h with he | ⟨c, hc, h2⟩
    · exact absurd he (by decide)
    · have hc2 : c ∈ sortedDeps [("A", ["B", "C"]), ("B", ["D"]), ("C", ["D"]), ("D", [])]
          "" "B" := hc
      rw [show sortedDeps [("A", ["B", "C"]), ("B", ["D"]), ("C", ["D"]), ("D", [])] "" "B" =
        ["D"] from by decide] at hc2
      simp only [List.mem_singleton] at hc2
      subst hc2
      rcases Relation.ReflTransGen.cases_head h2 with he2 | ⟨e, he, _⟩
      · exact absurd he2 (by decide)
      · have he3 : e ∈ sortedDeps [("A", ["B", "C"]), ("B", ["D"]), ("C", ["D"]), ("D", [])]
            "" "D" := he
        rw [show sortedDeps [("A", ["B", "C"]), ("B", ["D"]), ("C", ["D"]), ("D", [])] "" "D" =
          [] from by decide] at he3
        simp at he3
  exact ⟨by show "B" ∈ sortedDeps _ "" "A"; decide, by decide, hnr,
    dependency_precedes_dependent_in_load_order
      [("A", ["B", "C"]), ("B", ["D"]), ("C", ["D"]), ("D", [])] "A" "" "A" "B"
      (by show "B" ∈ sortedDeps _ "" "A"; decide) (by decide) hnr⟩

/-! ### Determinism up to set representation (C8) -/

/-- Two dictionaries represent the same abstract graph: the same names are
keys, and each name's dependency set has the same members (the stored lists
may order or repeat them differently — Python set iteration order). -/
def GraphEquiv (g g' : Graph) : Prop :=
  (∀ n, hasKey g n = hasKey g' n) ∧ (∀ n d, d ∈ lookupDeps g n ↔ d ∈ lookupDeps g' n)

theorem hasKey_congr {g g' : Graph} (h : keys g = keys g') (n : String) :
    hasKey g n = hasKey g' n := by
  rw [Bool.eq_iff_iff, hasKey_iff_mem_keys, hasKey_iff_mem_keys, h]

theorem lookupDeps_cons_congr {k : String} {v v' : List String} {g g' : Graph}
    (hv : ∀ d, d ∈ v ↔ d ∈ v') (hrest : ∀ n d, d ∈ lookupDeps g n ↔ d ∈ lookupDeps g' n) :
    ∀ n d, d ∈ lookupDeps ((k, v) :: g) n ↔ d ∈ lookupDeps ((k, v') :: g') n := by
  intro n d
  unfold lookupDeps gFind
  by_cases h : k = n
  · rw [List.find?_cons_of_pos _ (by simp [h]), List.find?_cons_of_pos _ (by simp [h])]
    simpa using hv d
  · rw [List.find?_cons_of_neg _ (by simp [h]), List.find?_cons_of_neg _ (by simp [h])]
    exact hrest n d

theorem sortedDeps_congr {g g' : Graph}
    (hl : ∀ n d, d ∈ lookupDeps g n ↔ d ∈ lookupDeps g' n) (fil n : String) :
    sortedDeps g fil n = sortedDeps g' fil n := by
  unfold sortedDeps
  apply sortStrings_eq_of_mem_iff (List.nodup_dedup _) (List.nodup_dedup _)
  intro a
  simp only [List.mem_dedup, List.mem_filter]
  rw [hl n a]

theorem renderChildren_congr {f f' : String → String → String → List Line} {pp : String}
    (h : ∀ d conn cont, f d conn cont = f' d conn cont) :
    ∀ ds, renderChildren f pp ds = renderChildren f' pp ds := by
  intro ds
  induction ds with
  | nil => rfl
  | cons d ds ih =>
    cases ds with
    | nil =>
      simp only [renderChildren]
      rw [h]
    | cons e ds =>
      simp only [renderChildren]
      rw [h, ih]

theorem printTreeRec_congr {g g' : Graph}
    (hsd : ∀ fil n, sortedDeps g fil n = sortedDeps g' fil n) (maxDepth : Nat) (fil : String) :
    ∀ fuel node depth pre path pp,
      printTreeRec g maxDepth fil fuel node depth pre path pp =
        printTreeRec g' maxDepth fil fuel node depth pre path pp := by
  intro fuel
  induction fuel with
  | zero => intro node depth pre path pp; rfl
  | succ fuel ih =>
    intro node depth pre path pp
    by_cases hf : isFiltered fil node = true
    · simp [printTreeRec, hf]
    · by_cases hp : node ∈ path
      · simp [printTreeRec, hf, hp]
      · by_cases hd : maxDepth ≤ depth
        · simp [printTreeRec, hf, hp, hd]
        · simp only [printTreeRec, Bool.not_eq_true] at hf ⊢
          simp only [hf, Bool.false_eq_true, if_false, if_neg hp, if_neg hd]
          rw [hsd fil node]
          exact congrArg _ (renderChildren_congr
            (fun d conn cont => ih d (depth + 1) conn (node :: path) cont) _)

theorem mem_keys_of_mem_lookupDeps {g : Graph} {n d : String} (h : d ∈ lookupDeps g n) :
    hasKey g n = true := by
  unfold lookupDeps at h
  cases hf : gFind g n with
  | none => rw [hf] at h; simp at h
  | some p => simp [hasKey, hf]

theorem mem_nodesOf_iff {g : Graph} {x : String} :
    x ∈ nodesOf g ↔ hasKey g x = true ∨ ∃ n, x ∈ lookupDeps g n := by
  unfold nodesOf
  rw [List.mem_append, List.mem_flatMap]
  constructor
  · rintro (h | ⟨n, _, hl⟩)
    · exact Or.inl (hasKey_iff_mem_keys.mpr h)
    · exact Or.inr ⟨n, hl⟩
  · rintro (h | ⟨n, hl⟩)
    · exact Or.inl (hasKey_iff_mem_keys.mp h)
    · exact Or.inr ⟨n, hasKey_iff_mem_keys.mp (mem_keys_of_mem_lookupDeps hl), hl⟩

theorem dfsFuel_congr {g g' : Graph} (hk : ∀ n, hasKey g n = hasKey g' n)
    (hl : ∀ n d, d ∈ lookupDeps g n ↔ d ∈ lookupDeps g' n) (start : String) :
    dfsFuel g start = dfsFuel g' start := by
  unfold dfsFuel
  have hnod : ∀ x, x ∈ nodesOf g ↔ x ∈ nodesOf g' := by
    intro x
    rw [mem_nodesOf_iff, mem_nodesOf_iff, hk x]
    constructor
    · rintro (h | ⟨n, h⟩)
      · exact Or.inl h
      · exact Or.inr ⟨n, (hl n x).mp h⟩
    · rintro (h | ⟨n, h⟩)
      · exact Or.inl h
      · exact Or.inr ⟨n, (hl n x).mpr h⟩
  have hset : (start :: nodesOf g).toFinset = (start :: nodesOf g').toFinset := by
    apply Finset.ext
    intro x
    simp only [List.mem_toFinset, List.mem_cons]
    rw [hnod x]
  have hcard := congrArg Finset.card hset
  rw [List.card_toFinset, List.card_toFinset] at hcard
  omega

theorem dfsGo_congr {g g' : Graph}
    (hsd : ∀ fil n, sortedDeps g fil n = sortedDeps g' fil n) (fil : String) :
    ∀ fuel node st, dfsGo g fil fuel node st = dfsGo g' fil fuel node st := by
  intro fuel
  induction fuel with
  | zero => intro node st; rfl
  | succ fuel ih =>
    have hfold : ∀ ds s, dfsFold g fil fuel ds s = dfsFold g' fil fuel ds s := by
      intro ds
      induction ds with
      | nil => intro s; rfl
      | cons d ds ihds =>
        intro s
        rw [dfsFold_cons, dfsFold_cons, ih, ihds]
    intro node st
    rw [dfsGo_succ, dfsGo_succ]
    simp only [hsd, hfold]

/-- C8: the traversals are deterministic — the model is a pure function of
its arguments (re-running on unchanged inputs is definitionally equal), and
the spec's reason, "sorting removes any input-order dependence", is proved:
two dictionaries holding the same keys and the same dependency sets (in any
stored order or multiplicity) render the same tree and compute the same
order and cycles. -/
theorem rerun_deterministic_up_to_set_representation (g g' : Graph) (pkg start fil : String)
    (maxDepth : Nat) (h : GraphEquiv g g') :
    run_test_mode g pkg maxDepth fil = run_test_mode g' pkg maxDepth fil ∧
    computeLoadOrder g start fil = computeLoadOrder g' start fil ∧
    run_loading_order_mode g pkg fil = run_loading_order_mode g' pkg fil := by
  obtain ⟨hk, hl⟩ := h
  have hsd := sortedDeps_congr hl
  have hco : ∀ s, computeLoadOrder g s fil = computeLoadOrder g' s fil := by
    intro s
    unfold computeLoadOrder
    rw [dfsFuel_congr hk hl s, dfsGo_congr hsd fil]
  have hrt : run_test_mode g pkg maxDepth fil = run_test_mode g' pkg maxDepth fil := by
    unfold run_test_mode
    rw [hk pkg, hsd fil pkg]
    by_cases hkey : hasKey g' pkg = true
    · rw [if_pos hkey, if_pos hkey]
      rw [renderChildren_congr
        (fun d conn cont => printTreeRec_congr hsd maxDepth fil maxDepth d 1 conn [pkg] cont)
        (sortedDeps g' fil pkg)]
    · rw [if_neg (by simp [hkey]), if_neg (by simp [hkey])]
  refine ⟨hrt, hco start, ?_⟩
  unfold run_loading_order_mode
  rw [hk pkg, hco pkg]

theorem rerun_deterministic_up_to_set_representation_witness :
    GraphEquiv [("A", ["B", "C"]), ("B", []), ("C", [])]
      [("A", ["C", "B", "B"]), ("B", []), ("C", [])] ∧
    (run_test_mode [("A", ["B", "C"]), ("B", []), ("C", [])] "A" 5 "" =
        run_test_mode [("A", ["C", "B", "B"]), ("B", []), ("C", [])] "A" 5 "" ∧
      computeLoadOrder [("A", ["B", "C"]), ("B", []), ("C", [])] "A" "" =
        computeLoadOrder [("A", ["C", "B", "B"]), ("B", []), ("C", [])] "A" "" ∧
      run_loading_order_mode [("A", ["B", "C"]), ("B", []), ("C", [])] "A" "" =
        run_loading_order_mode [("A", ["C", "B", "B"]), ("B", []), ("C", [])] "A" "") := by
  have hequiv : GraphEquiv [("A", ["B", "C"]), ("B", []), ("C", [])]
      [("A", ["C", "B", "B"]), ("B", []), ("C", [])] := by
    constructor
    · intro n
      exact hasKey_congr (by decide) n
    · exact lookupDeps_cons_congr
        (fun d => by simp only [List.mem_cons, List.mem_singleton]; tauto)
        (lookupDeps_cons_congr (fun d => Iff.rfl)
          (lookupDeps_cons_congr (fun d => Iff.rfl) (fun n d => Iff.rfl)))
  exact ⟨hequiv, rerun_deterministic_up_to_set_representation
    [("A", ["B", "C"]), ("B", []), ("C", [])] [("A", ["C", "B", "B"]), ("B", []), ("C", [])]
    "A" "A" "" 5 hequiv⟩
